import Mathlib

/-!
Verification of the Patch/PatchSet algebra and the tag consistency checks
of the debtags-heuristics repository, shallowly embedded from
`src/patches.py` and `src/checks.py`.

Tags and package names are modelled as `String`, Python `set` as
`Finset String`, Python `dict` (pkg → Patch, insertion ordered) as an
association list `List (String × Patch)`, and exceptions as `Except`.
String-scanning primitives (`str.split`, `str.strip`, `re.match`) are
embedded as structural recursions over the character list of the string.
-/

deriving instance DecidableEq for Except

namespace Debtags

/-- Python `text.split(", ")`: cut the character list at every
(non-overlapping, leftmost-first) occurrence of the two-character
separator `", "`; splitting the empty string yields `[""]`. -/
def splitCommaSpace : List Char → List (List Char)
  | [] => [[]]
  | ',' :: ' ' :: rest => [] :: splitCommaSpace rest
  | c :: rest =>
    match splitCommaSpace rest with
    | [] => [[c]]
    | t :: ts => (c :: t) :: ts

/-- Python `line.strip()`: drop whitespace from both ends. -/
def pyStrip (s : String) : String :=
  String.mk (((s.data.dropWhile Char.isWhitespace).reverse.dropWhile
      Char.isWhitespace).reverse)

/-- Python `line.split(": ", 1)` when it succeeds: split at the first
occurrence of `": "`, returning the parts before and after; `none` when
the separator does not occur (the `ValueError` branch in `read_fd`). -/
def splitColonSpace : List Char → Option (List Char × List Char)
  | [] => none
  | ':' :: ' ' :: rest => some ([], rest)
  | c :: rest => (splitColonSpace rest).map (fun pr => (c :: pr.1, pr.2))

/-- Errors raised while parsing patch text, mirroring the Python
exceptions that can escape `PatchSet.read_fd`: the explicit ValueError
carrying the offending line text and the `IndexError`
raised by `t[0]` in `Patch.parse` when a comma-separated token is
empty. -/
inductive ReadError where
  | cannotParse (line : String)
  | indexError
deriving DecidableEq

/-- Model of `class Patch` of src/patches.py: a patch to the tagset of a package,
with fields `added` and `removed` (Python `set`s). -/
structure Patch where
  added : Finset String
  removed : Finset String
deriving DecidableEq

namespace Patch

/-- Model of `Patch.empty` (src/patches.py:15-19): `not (self.added or self.removed)`
(a Python set is falsy exactly when it is empty). -/
def empty (p : Patch) : Bool :=
  p.added = ∅ ∧ p.removed = ∅

/-- One iteration of the loop in `Patch.parse` (src/patches.py:22-29) on
token `t`: `tag = t[1:]`; blacklisted tags are skipped; then `t[0]` is
inspected — on an empty token this raises `IndexError`; `+` inserts into
`added`, `-` inserts into `removed`, and any other leading character
falls through both branches, leaving the patch unchanged. (The
`if tag is None: continue` line is dead code: a slice is never `None`.) -/
def parseTok (bl : List String) (p : Patch) (t : List Char) : Except ReadError Patch :=
  let tag := String.mk t.tail
  if tag ∈ bl then .ok p
  else
    match t with
    | [] => .error .indexError
    | c :: _ =>
      if c = '+' then .ok { p with added := insert tag p.added }
      else if c = '-' then .ok { p with removed := insert tag p.removed }
      else .ok p

/-- Model of `Patch.parse` (src/patches.py:21-29): split the text on `", "` and
process each token in order, mutating the patch. -/
def parse (p : Patch) (text : String) (bl : List String) : Except ReadError Patch :=
  (splitCommaSpace text.data).foldlM (parseTok bl) p

/-- The pure tag-set transformation inside `Patch.apply`
(src/patches.py:36-37): `ts -= self.removed; ts |= self.added`. -/
def applyTo (p : Patch) (ts : Finset String) : Finset String :=
  (ts \ p.removed) ∪ p.added

/-- Model of `Patch.write` (src/patches.py:43-46): the string written to `fd` —
`-tag` entries sorted ascending, then `+tag` entries sorted ascending,
joined by `", "`. -/
def writeStr (p : Patch) : String :=
  String.intercalate ", "
    ((p.removed.sort (· ≤ ·)).map (fun t => "-" ++ t) ++
     (p.added.sort (· ≤ ·)).map (fun t => "+" ++ t))

/-- Model of `Patch.add` (src/patches.py:53-60), merging changes into a patch:
`added |= added'; removed -= added'; removed |= removed'; added -= removed'`. -/
def add (p : Patch) (ia ir : Finset String) : Patch :=
  { added := (p.added ∪ ia) \ ir,
    removed := (p.removed \ ia) ∪ ir }

/-- The Python truthiness test `if tag_whitelist:` in `Patch.simplified`
(src/patches.py:72-74): intersection with the whitelist happens only when
the whitelist is neither `None` nor the empty set. -/
def wlFilter (wl : Option (Finset String)) (s : Finset String) : Finset String :=
  match wl with
  | none => s
  | some w => if w = ∅ then s else s ∩ w

/-- Model of `Patch.simplified` (src/patches.py:62-82): keep only changes that
actually apply to `tags` (`added - tags` and `removed ∩ tags`, optionally
intersected with a whitelist); return `None` when nothing remains.
(The `return self` shortcut when nothing was dropped returns a value
equal to the patch built here, so it is not modelled separately.) -/
def simplified (p : Patch) (tags : Finset String) (wl : Option (Finset String)) :
    Option Patch :=
  let na := wlFilter wl (p.added \ tags)
  let nd := wlFilter wl (p.removed ∩ tags)
  if na = ∅ ∧ nd = ∅ then none else some ⟨na, nd⟩

/-- Model of `Patch.diff` (src/patches.py:84-94): the patch to apply after `a` so
that the effect is as if `b` had been applied. -/
def diff (a b : Patch) : Patch :=
  { added := (a.removed \ b.removed) ∪ (b.added \ a.added),
    removed := (a.added \ b.added) ∪ (b.removed \ a.removed) }

end Patch

/-- The `debtags.DB` instance that `Patch.apply` mutates: `db` is the
package → tag-set mapping (`tagdb.db`, with `pkgs` tracking which keys
are present, as `setdefault` inserts missing ones), and `rdb` is the
reverse tag → package-set mapping (`tagdb.rdb`). Both mappings are
total functions defaulting to the empty set, matching the `setdefault`
access pattern of the source. -/
structure TagDatabase where
  pkgs : Finset String
  db : String → Finset String
  rdb : String → Finset String

/-- Model of `debtags.DB.has_package`: key membership in the forward mapping. -/
def TagDatabase.hasPackage (d : TagDatabase) (pkg : String) : Bool :=
  pkg ∈ d.pkgs

/-- Model of `debtags.DB.tags_of_package`: lookup in the forward mapping. -/
def TagDatabase.tagsOfPackage (d : TagDatabase) (pkg : String) : Finset String :=
  d.db pkg

/-- The forward/reverse index consistency invariant of §3 of the spec:
package `p` carries tag `t` in the forward index iff `p` is a member of
the reverse-index entry for `t`. -/
def TagDatabase.Consistent (d : TagDatabase) : Prop :=
  ∀ p t, p ∈ d.rdb t ↔ t ∈ d.db p

/-- Model of `Patch.apply` (src/patches.py:31-41): `ts = tagdb.db.setdefault(pkg, set());
ts -= removed; ts |= added`, then the reverse entry of each removed tag
discards `pkg` and the reverse entry of each added tag gains `pkg` (for a
tag in both sets, the discard runs before the add). -/
def Patch.apply (patch : Patch) (pkg : String) (d : TagDatabase) : TagDatabase :=
  { pkgs := insert pkg d.pkgs,
    db := fun p => if p = pkg then (d.db pkg \ patch.removed) ∪ patch.added else d.db p,
    rdb := fun t =>
      let afterDel := if t ∈ patch.removed then (d.rdb t).erase pkg else d.rdb t
      if t ∈ patch.added then insert pkg afterDel else afterDel }

/-- Model of `class PatchSet(dict)`: a pkg → patch mapping, modelled as an
insertion-ordered association list with unique keys. -/
abbrev PS : Type := List (String × Patch)

namespace PS

/-- Python `pkg in self` / `self[pkg]`: lookup of the first (unique)
entry for a key. -/
def find : PS → String → Option Patch
  | [], _ => none
  | (p, patch) :: rest, pkg => if p = pkg then some patch else find rest pkg

/-- In-place update `self[pkg].parse(...)` of an existing entry: replace
the value at the key, keeping its position. -/
def replace : PS → String → Patch → PS
  | [], _, _ => []
  | (p, patch) :: rest, pkg, q =>
    if p = pkg then (p, q) :: rest else (p, patch) :: replace rest pkg q

/-- Model of `PatchSet.add` (src/patches.py:156-167): merge into the existing
Patch for `pkg`, or create a fresh Patch from the given sets and store
it only when it is non-empty. -/
def add (ps : PS) (pkg : String) (ia ir : Finset String) : PS :=
  match ps with
  | [] => if (Patch.mk ia ir).empty then [] else [(pkg, ⟨ia, ir⟩)]
  | (p, patch) :: rest =>
    if p = pkg then (p, patch.add ia ir) :: rest
    else (p, patch) :: add rest pkg ia ir

/-- Model of `PatchSet.add_patchset` (src/patches.py:169-174): `add` every entry
of the other patchset, in its iteration order. -/
def add_patchset (ps other : PS) : PS :=
  other.foldl (fun acc e => add acc e.1 e.2.added e.2.removed) ps

/-- Model of `PatchSet.simplified` (src/patches.py:176-193): drop packages no
longer in the database, simplify each remaining patch against the
live tags of the package, and keep only the non-`None` results. -/
def simplified (ps : PS) (d : TagDatabase) (wl : Option (Finset String)) : PS :=
  ps.filterMap (fun e =>
    if d.hasPackage e.1 then
      (e.2.simplified (d.tagsOfPackage e.1) wl).map (fun q => (e.1, q))
    else none)

/-- Model of `PatchSet.apply_to` (src/patches.py:149-154): apply each entry
patch to the database, in iteration order. -/
def apply_to (ps : PS) (d : TagDatabase) : TagDatabase :=
  ps.foldl (fun acc e => e.2.apply e.1 acc) d

/-- Model of `PatchSet.diff` (src/patches.py:195-215): for packages in both,
`Patch.diff`; for packages only in `ps`, the reverse of the patch; for
packages only in `other`, the patch verbatim; all accumulated with
`PS.add` into a fresh patchset. -/
def diff (ps other : PS) : PS :=
  let part1 := ps.foldl (fun res e =>
    match find other e.1 with
    | none => add res e.1 e.2.removed e.2.added
    | some op => let d := e.2.diff op; add res e.1 d.added d.removed) []
  other.foldl (fun res e =>
    match find ps e.1 with
    | none => add res e.1 e.2.added e.2.removed
    | some _ => res) part1

end PS

/-- The regular expression `^[^: ,]+:?$` of src/patches.py:128: one or
more characters none of which is `':'`, `' '` or `','`, optionally
followed by a single `':'`, spanning the whole line. Because the
character class excludes `':'`, the greedy scan is exact: the match
succeeds iff the maximal prefix of such characters is non-empty and the
remainder is empty or exactly `":"`. -/
def legacyLine (s : String) : Bool :=
  let ok : Char → Bool := fun c => c ≠ ':' && c ≠ ' ' && c ≠ ','
  let p := s.data.takeWhile ok
  let r := s.data.dropWhile ok
  !p.isEmpty && (r.isEmpty || r = [':'])

/-- One iteration of the loop in `PatchSet.read_fd`
(src/patches.py:120-136) on one line: strip it; skip it when blank;
split on the first `": "` — when the separator is absent, skip the line
if it matches the legacy empty-patch regex and otherwise raise
`ValueError` carrying the stripped line; when the separator is present,
parse the patch body into the existing entry for the package, or create
a new entry (dropped when empty). -/
def PS.readLine (bl : List String) (ps : PS) (line : String) : Except ReadError PS :=
  let l := pyStrip line
  if l = "" then .ok ps
  else
    match splitColonSpace l.data with
    | none => if legacyLine l then .ok ps else .error (.cannotParse l)
    | some (pkg, tags) =>
      match PS.find ps (String.mk pkg) with
      | some cur =>
        match Patch.parse cur (String.mk tags) bl with
        | .error e => .error e
        | .ok q => .ok (PS.replace ps (String.mk pkg) q)
      | none =>
        match Patch.parse ⟨∅, ∅⟩ (String.mk tags) bl with
        | .error e => .error e
        | .ok q => .ok (if q.empty then ps else ps ++ [(String.mk pkg, q)])

/-- Model of `PatchSet.read_fd` (src/patches.py:120-136): process the lines of
the file in order. -/
def PS.read_fd (bl : List String) (ps : PS) : List String → Except ReadError PS
  | [] => .ok ps
  | line :: rest =>
    match PS.readLine bl ps line with
    | .error e => .error e
    | .ok ps' => PS.read_fd bl ps' rest

/-- Model of `HasEquivsTagcheck.check_tags` (src/checks.py:240-246): yield a
`(has, miss)` record when exactly one of `role::devel-lib` and
`devel::library` is present. -/
def HasEquivsTagcheck.check_tags (tags : Finset String) : List (String × String) :=
  let has_role := "role::devel-lib" ∈ tags
  let has_devlib := "devel::library" ∈ tags
  if has_role ∧ ¬has_devlib then [("role::devel-lib", "devel::library")]
  else if has_devlib ∧ ¬has_role then [("devel::library", "role::devel-lib")]
  else []

/-- Invariant of `PatchSet` per §3 of the spec: a patchset never stores an
empty Patch. -/
def PS.NoEmpty (ps : PS) : Prop :=
  ∀ e ∈ ps, e.2.empty = false

/-! Helper lemmas shared by several of the theorems below. -/

theorem inter_empty_iff {s t : Finset String} :
    s ∩ t = ∅ ↔ ∀ x, x ∈ s → x ∉ t := by
  constructor
  · intro h x hx ht
    have hm : x ∈ s ∩ t := Finset.mem_inter.mpr ⟨hx, ht⟩
    rw [h] at hm
    exact absurd hm (Finset.not_mem_empty x)
  · intro h
    exact Finset.disjoint_iff_inter_eq_empty.mp
      (Finset.disjoint_left.mpr (fun {a} ha => h a ha))

/-- Scenario `-z, +a, +b` used by the serialization claim. -/
theorem writeStr_scenario : Patch.writeStr ⟨{"b", "a"}, {"z"}⟩ = "-z, +a, +b" := by
  have h : ({"b", "a"} : Finset String) = {"a", "b"} := by decide
  have hab : ("a" : String) ≤ "b" := by
    rw [String.le_iff_toList_le]; decide
  rw [Patch.writeStr, h]
  rw [show ({"a", "b"} : Finset String) = insert "a" {"b"} from rfl]
  rw [Finset.sort_insert (· ≤ ·)
        (by intro b hb; rw [Finset.mem_singleton] at hb; subst hb; exact hab)
        (by decide),
    Finset.sort_singleton, Finset.sort_singleton]
  decide

/-- C4: serialization (`Patch.write`) emits the `-tag` entries in ascending
sorted order, then the `+tag` entries in ascending sorted order, joined by
comma-space; in particular the Patch with added {"b","a"} and removed {"z"}
serializes to exactly "-z, +a, +b". -/
theorem write_canonical_order :
    (∀ added removed : Finset String, Patch.writeStr ⟨added, removed⟩ =
      String.intercalate ", "
        ((removed.sort (· ≤ ·)).map (fun t => "-" ++ t) ++
         (added.sort (· ≤ ·)).map (fun t => "+" ++ t))) ∧
    Patch.writeStr ⟨{"b", "a"}, {"z"}⟩ = "-z, +a, +b" :=
  ⟨fun _ _ => rfl, writeStr_scenario⟩

/-- C9: on the tag set {"role::devel-lib"} the role/library-equivalence
check yields exactly one violation with has = role::devel-lib and
miss = devel::library; symmetrically, any tag set containing
devel::library but not role::devel-lib yields exactly one violation with
miss = role::devel-lib. -/
theorem has_equivs_check :
    HasEquivsTagcheck.check_tags {"role::devel-lib"} =
      [("role::devel-lib", "devel::library")] ∧
    ∀ tags : Finset String, "devel::library" ∈ tags →
      "role::devel-lib" ∉ tags →
      HasEquivsTagcheck.check_tags tags =
        [("devel::library", "role::devel-lib")] := by
  constructor
  · decide
  · intro tags h1 h2
    rw [HasEquivsTagcheck.check_tags]
    rw [if_neg (by simp [h2]), if_pos ⟨h1, h2⟩]

/-- Witness for C9 at the concrete tag set {"devel::library"}. -/
theorem has_equivs_check_witness :
    HasEquivsTagcheck.check_tags {"devel::library"} =
      [("devel::library", "role::devel-lib")] :=
  has_equivs_check.2 {"devel::library"} (by decide) (by decide)

/-- C1 counterexample: with A = (added ∅, removed {"y"}), B the empty
patch and T = ∅, applying A and then A.diff(B) yields {"y"}, while
applying B alone yields ∅ — the difference-correctness law fails without
side conditions, because A removes a tag that T does not contain. -/
theorem diff_correctness_counterexample :
    (Patch.diff ⟨∅, {"y"}⟩ ⟨∅, ∅⟩).applyTo
        ((⟨∅, {"y"}⟩ : Patch).applyTo ∅) ≠
      (⟨∅, ∅⟩ : Patch).applyTo ∅ := by decide

/-- C1 amended: the difference-correctness law holds whenever A is proper
for the starting set T (its additions are not already in T and it only
removes tags present in T) and the added and removed sets of B are
disjoint (the documented Patch invariant). -/
theorem diff_correctness_amended (A B : Patch) (T : Finset String)
    (hA1 : A.added ∩ T = ∅) (hA2 : A.removed ⊆ T)
    (hB : B.added ∩ B.removed = ∅) :
    (A.diff B).applyTo (A.applyTo T) = B.applyTo T := by
  have h1 : ∀ x, x ∈ A.added → x ∉ T := inter_empty_iff.mp hA1
  have h3 : ∀ x, x ∈ B.added → x ∉ B.removed := inter_empty_iff.mp hB
  ext x
  have h2 : x ∈ A.removed → x ∈ T := fun h => hA2 h
  simp only [Patch.applyTo, Patch.diff, Finset.mem_union, Finset.mem_sdiff]
  have h1x := h1 x
  have h3x := h3 x
  tauto

/-- Witness for C1 at concrete patches and tag set. -/
theorem diff_correctness_witness :
    (Patch.diff ⟨∅, {"y"}⟩ ⟨{"z"}, ∅⟩).applyTo
        ((⟨∅, {"y"}⟩ : Patch).applyTo {"y"}) =
      (⟨{"z"}, ∅⟩ : Patch).applyTo {"y"} :=
  diff_correctness_amended ⟨∅, {"y"}⟩ ⟨{"z"}, ∅⟩ {"y"}
    (by decide) (by decide) (by decide)

theorem parseTok_error_eq {bl : List String} {p : Patch} {t : List Char}
    {e : ReadError} (h : Patch.parseTok bl p t = .error e) :
    t = [] ∧ e = .indexError := by
  cases t with
  | nil =>
    simp only [Patch.parseTok] at h
    split_ifs at h
    injection h with h2
    exact ⟨rfl, h2.symm⟩
  | cons c cs =>
    simp only [Patch.parseTok] at h
    split_ifs at h

theorem parse_error_eq {bl : List String} {text : String} {p : Patch}
    {e : ReadError} (h : Patch.parse p text bl = .error e) :
    e = .indexError := by
  rw [Patch.parse] at h
  generalize splitCommaSpace text.data = toks at h
  induction toks generalizing p with
  | nil => simp [Pure.pure, Except.pure] at h
  | cons t rest ih =>
    rw [List.foldlM_cons] at h
    cases htok : Patch.parseTok bl p t with
    | error e2 =>
      rw [htok] at h
      simp [Bind.bind, Except.bind] at h
      rw [← h]
      exact (parseTok_error_eq htok).2
    | ok q =>
      rw [htok] at h
      simp only [Bind.bind, Except.bind] at h
      exact ih h

theorem parseTok_ok_of_ne_nil (bl : List String) (p : Patch) (t : List Char)
    (h : t ≠ []) : ∃ q, Patch.parseTok bl p t = .ok q := by
  cases htok : Patch.parseTok bl p t with
  | error e => exact absurd (parseTok_error_eq htok).1 h
  | ok q => exact ⟨q, rfl⟩

theorem parse_ok_of_tokens_ne_nil (bl : List String) (p : Patch) (text : String)
    (h : ∀ t ∈ splitCommaSpace text.data, t ≠ []) :
    ∃ q, Patch.parse p text bl = .ok q := by
  rw [Patch.parse]
  revert h
  generalize splitCommaSpace text.data = toks
  intro h
  induction toks generalizing p with
  | nil => exact ⟨p, rfl⟩
  | cons t rest ih =>
    obtain ⟨q1, hq1⟩ := parseTok_ok_of_ne_nil bl p t (h t (by simp))
    obtain ⟨q, hq⟩ := ih q1 (fun u hu => h u (by simp [hu]))
    refine ⟨q, ?_⟩
    rw [List.foldlM_cons, hq1]
    simpa [Bind.bind, Except.bind] using hq

/-- C3 counterexample: the comma-separated token "xfoo" starts with a
character that is neither a plus nor a minus, yet `Patch.parse` succeeds
and silently leaves the patch unchanged, instead of failing with a fatal
parse error as the claim states. -/
theorem parse_unknown_char_counterexample :
    Patch.parse ⟨∅, ∅⟩ "xfoo" [] = .ok ⟨∅, ∅⟩ := by decide

/-- C3 amended: a token whose leading character is neither a plus nor a
minus is silently skipped (it contributes nothing to the patch); a token
whose tag part is in the blacklist is silently dropped; parsing fails
only on an empty token (the Python IndexError from indexing into an
empty string), and never fails when every token is non-empty. -/
theorem parse_unknown_char_amended :
    (∀ (bl : List String) (p : Patch) (c : Char) (cs : List Char),
      c ≠ '+' → c ≠ '-' → Patch.parseTok bl p (c :: cs) = .ok p) ∧
    (∀ (bl : List String) (p : Patch) (t : List Char),
      String.mk t.tail ∈ bl → Patch.parseTok bl p t = .ok p) ∧
    (∀ (bl : List String) (p : Patch) (t : List Char) (e : ReadError),
      Patch.parseTok bl p t = .error e → t = [] ∧ e = .indexError) ∧
    (∀ (bl : List String) (p : Patch) (text : String),
      (∀ t ∈ splitCommaSpace text.data, t ≠ []) →
      ∃ q, Patch.parse p text bl = .ok q) := by
  refine ⟨?_, ?_, ?_, ?_⟩
  · intro bl p c cs hc1 hc2
    simp only [Patch.parseTok]
    split_ifs <;> simp_all
  · intro bl p t hbl
    simp only [Patch.parseTok]
    rw [if_pos hbl]
  · intro bl p t e h
    exact parseTok_error_eq h
  · intro bl p text h
    exact parse_ok_of_tokens_ne_nil bl p text h

/-- Witness for C3 at concrete tokens and text. -/
theorem parse_unknown_char_witness :
    Patch.parseTok [] ⟨{"a"}, ∅⟩ ['x', 'f'] = .ok ⟨{"a"}, ∅⟩ ∧
    ∃ q, Patch.parse ⟨∅, ∅⟩ "+a, xfoo" [] = .ok q :=
  ⟨parse_unknown_char_amended.1 [] ⟨{"a"}, ∅⟩ 'x' ['f'] (by decide) (by decide),
   parse_unknown_char_amended.2.2.2 [] ⟨∅, ∅⟩ "+a, xfoo" (by decide)⟩

theorem wlFilter_subset (wl : Option (Finset String)) (s : Finset String) :
    Patch.wlFilter wl s ⊆ s := by
  cases wl with
  | none => exact Finset.Subset.refl _
  | some w =>
    rw [Patch.wlFilter]
    split_ifs
    · exact Finset.Subset.refl _
    · exact Finset.inter_subset_left

theorem patch_add_disjoint (p : Patch) (ia ir : Finset String)
    (h : p.added ∩ p.removed = ∅) :
    (p.add ia ir).added ∩ (p.add ia ir).removed = ∅ := by
  rw [inter_empty_iff] at h ⊢
  intro x hx hr
  simp only [Patch.add, Finset.mem_sdiff, Finset.mem_union] at hx hr
  have := h x
  tauto

theorem patch_simplified_disjoint (p : Patch) (tags : Finset String)
    (wl : Option (Finset String)) (q : Patch)
    (h : p.simplified tags wl = some q) :
    q.added ∩ q.removed = ∅ := by
  simp only [Patch.simplified] at h
  split_ifs at h
  injection h with h2
  subst h2
  rw [inter_empty_iff]
  intro x hx hr
  have hx2 := wlFilter_subset wl _ hx
  have hr2 := wlFilter_subset wl _ hr
  rw [Finset.mem_sdiff] at hx2
  rw [Finset.mem_inter] at hr2
  exact hx2.2 hr2.2

/-- C2 counterexample: `Patch.parse` performs plain set inserts with no
conflict resolution, so parsing the text "+x, -x" yields a patch whose
added and removed sets both contain x — their intersection is not
empty, violating the claimed invariant for patches built through
`parse`. -/
theorem disjoint_invariant_counterexample :
    Patch.parse ⟨∅, ∅⟩ "+x, -x" [] = .ok ⟨{"x"}, {"x"}⟩ ∧
    ¬(({"x"} : Finset String) ∩ ({"x"} : Finset String) = ∅) := by decide

/-- C2 amended: `Patch.add` (merge) preserves disjointness of added and
removed, `Patch.simplified` (restrict) always produces disjoint sets,
`Patch.diff` (difference) preserves disjointness, and `PatchSet.add`
preserves it across the patchset provided the incoming added and removed
sets are themselves disjoint; merging added={x} and then removed={x}
into any patch leaves x only in removed, never in both. `Patch.parse`,
however, inserts tokens verbatim and does not maintain the invariant
(see the counterexample), and `PatchSet.add` on an absent package stores
the given sets verbatim, so the invariant there needs the proviso on the
incoming sets. -/
theorem disjoint_invariant_amended :
    (∀ (p : Patch) (ia ir : Finset String), p.added ∩ p.removed = ∅ →
      (p.add ia ir).added ∩ (p.add ia ir).removed = ∅) ∧
    (∀ (p : Patch) (tags : Finset String) (wl : Option (Finset String)) (q : Patch),
      p.simplified tags wl = some q → q.added ∩ q.removed = ∅) ∧
    (∀ a b : Patch, a.added ∩ a.removed = ∅ → b.added ∩ b.removed = ∅ →
      (a.diff b).added ∩ (a.diff b).removed = ∅) ∧
    (∀ (ps : PS) (pkg : String) (ia ir : Finset String),
      (∀ e ∈ ps, e.2.added ∩ e.2.removed = ∅) → ia ∩ ir = ∅ →
      ∀ e ∈ PS.add ps pkg ia ir, e.2.added ∩ e.2.removed = ∅) ∧
    (∀ (p : Patch) (x : String),
      x ∈ ((p.add {x} ∅).add ∅ {x}).removed ∧
      x ∉ ((p.add {x} ∅).add ∅ {x}).added) := by
  refine ⟨patch_add_disjoint, patch_simplified_disjoint, ?_, ?_, ?_⟩
  · intro a b ha hb
    rw [inter_empty_iff] at ha hb ⊢
    intro x hx hr
    simp only [Patch.diff, Finset.mem_union, Finset.mem_sdiff] at hx hr
    have := ha x
    have := hb x
    tauto
  · intro ps pkg ia ir hps hii
    induction ps with
    | nil =>
      intro e he
      rw [PS.add] at he
      split_ifs at he
      · simp at he
      · rw [List.mem_singleton] at he
        subst he
        exact hii
    | cons hd rest ih =>
      obtain ⟨p, patch⟩ := hd
      intro e he
      rw [PS.add] at he
      split_ifs at he
      · rcases List.mem_cons.mp he with h1 | h1
        · subst h1
          exact patch_add_disjoint patch ia ir (hps (p, patch) (by simp))
        · exact hps e (List.mem_cons_of_mem _ h1)
      · rcases List.mem_cons.mp he with h1 | h1
        · subst h1
          exact hps (p, patch) (by simp)
        · exact ih (fun u hu => hps u (List.mem_cons_of_mem _ hu)) e h1
  · intro p x
    constructor <;> simp [Patch.add]

/-- Witness for C2 at a concrete patch with disjoint sets. -/
theorem disjoint_invariant_witness :
    ((⟨{"a"}, {"b"}⟩ : Patch).add {"c"} {"a"}).added ∩
      ((⟨{"a"}, {"b"}⟩ : Patch).add {"c"} {"a"}).removed = ∅ :=
  disjoint_invariant_amended.1 ⟨{"a"}, {"b"}⟩ {"c"} {"a"} (by decide)

theorem consistent_apply (patch : Patch) (pkg : String) (d : TagDatabase)
    (h : d.Consistent) : (patch.apply pkg d).Consistent := by
  intro p t
  simp only [Patch.apply]
  by_cases hp : p = pkg <;> by_cases ha : t ∈ patch.added <;>
    by_cases hr : t ∈ patch.removed <;>
    simp [hp, ha, hr, Finset.mem_insert, Finset.mem_erase, Finset.mem_union,
      Finset.mem_sdiff, h p t, h pkg t]

theorem consistent_apply_to (ps : PS) (d : TagDatabase) (h : d.Consistent) :
    (PS.apply_to ps d).Consistent := by
  induction ps generalizing d with
  | nil => exact h
  | cons e rest ih =>
    simp only [PS.apply_to, List.foldl_cons]
    exact ih (e.2.apply e.1 d) (consistent_apply e.2 e.1 d h)

/-- C5: if the forward (package → tags) and reverse (tag → packages)
indices of a TagDatabase are consistent, then after `Patch.apply` (and
hence after `PatchSet.apply_to`) they are still consistent: package p
carries tag t in the forward index iff p is in the reverse entry for t. -/
theorem apply_preserves_consistency :
    ∀ (patch : Patch) (pkg : String) (ps : PS) (d : TagDatabase),
      d.Consistent →
      (patch.apply pkg d).Consistent ∧ (PS.apply_to ps d).Consistent :=
  fun patch pkg ps d h =>
    ⟨consistent_apply patch pkg d h, consistent_apply_to ps d h⟩

/-- Witness for C5 at a concrete patch applied to the empty database. -/
theorem apply_preserves_consistency_witness :
    ((⟨{"t"}, ∅⟩ : Patch).apply "p" ⟨∅, fun _ => ∅, fun _ => ∅⟩).Consistent ∧
    (PS.apply_to [("p", ⟨{"t"}, ∅⟩)] ⟨∅, fun _ => ∅, fun _ => ∅⟩).Consistent :=
  apply_preserves_consistency ⟨{"t"}, ∅⟩ "p" [("p", ⟨{"t"}, ∅⟩)]
    ⟨∅, fun _ => ∅, fun _ => ∅⟩ (fun p t => by simp)

theorem wlFilter_idem (wl : Option (Finset String)) (s : Finset String) :
    Patch.wlFilter wl (Patch.wlFilter wl s) = Patch.wlFilter wl s := by
  cases wl with
  | none => rfl
  | some w =>
    simp only [Patch.wlFilter]
    split_ifs
    · rfl
    · rw [Finset.inter_assoc, Finset.inter_self]

theorem simplified_idem_patch (p : Patch) (tags : Finset String)
    (wl : Option (Finset String)) (q : Patch)
    (h : p.simplified tags wl = some q) : q.simplified tags wl = some q := by
  simp only [Patch.simplified] at h ⊢
  split_ifs at h with hc
  injection h with h2
  subst h2
  have hna : Patch.wlFilter wl ((Patch.wlFilter wl (p.added \ tags)) \ tags) =
      Patch.wlFilter wl (p.added \ tags) := by
    have hdis : (Patch.wlFilter wl (p.added \ tags)) \ tags =
        Patch.wlFilter wl (p.added \ tags) := by
      rw [Finset.sdiff_eq_self_iff_disjoint, Finset.disjoint_left]
      intro a hasub
      have hmem := wlFilter_subset wl _ hasub
      rw [Finset.mem_sdiff] at hmem
      exact hmem.2
    rw [hdis, wlFilter_idem]
  have hnd : Patch.wlFilter wl ((Patch.wlFilter wl (p.removed ∩ tags)) ∩ tags) =
      Patch.wlFilter wl (p.removed ∩ tags) := by
    have hsub : (Patch.wlFilter wl (p.removed ∩ tags)) ∩ tags =
        Patch.wlFilter wl (p.removed ∩ tags) := by
      rw [Finset.inter_eq_left]
      intro a ha
      have hmem := wlFilter_subset wl _ ha
      rw [Finset.mem_inter] at hmem
      exact hmem.2
    rw [hsub, wlFilter_idem]
  rw [hna, hnd, if_neg hc]

/-- C7: simplifying a PatchSet twice against the same tag database and
whitelist equals simplifying it once. -/
theorem simplified_idempotent (ps : PS) (d : TagDatabase)
    (wl : Option (Finset String)) :
    PS.simplified (PS.simplified ps d wl) d wl = PS.simplified ps d wl := by
  induction ps with
  | nil => rfl
  | cons e rest ih =>
    by_cases hhp : d.hasPackage e.1
    · cases hq : e.2.simplified (d.tagsOfPackage e.1) wl with
      | none =>
        simp only [PS.simplified, List.filterMap_cons, if_pos hhp, hq,
          Option.map_none']
        exact ih
      | some q =>
        have hq2 := simplified_idem_patch e.2 (d.tagsOfPackage e.1) wl q hq
        simp only [PS.simplified, List.filterMap_cons, if_pos hhp, hq, hq2,
          Option.map_some']
        exact congrArg (List.cons (e.1, q)) ih
    · simp only [PS.simplified, List.filterMap_cons, if_neg hhp]
      exact ih

theorem parseTok_union (bl : List String) (p : Patch) (t : List Char) :
    Patch.parseTok bl p t = (Patch.parseTok bl ⟨∅, ∅⟩ t).map
      (fun q0 => ⟨p.added ∪ q0.added, p.removed ∪ q0.removed⟩) := by
  simp only [Patch.parseTok]
  by_cases hbl : String.mk t.tail ∈ bl
  · rw [if_pos hbl, if_pos hbl]
    simp [Except.map]
  · rw [if_neg hbl, if_neg hbl]
    cases t with
    | nil => rfl
    | cons c cs =>
      dsimp only
      split_ifs
      · simp only [Except.map]
        refine congrArg Except.ok ?_
        rw [Finset.union_insert, Finset.union_empty, Finset.union_empty]
      · simp only [Except.map]
        refine congrArg Except.ok ?_
        rw [Finset.union_insert, Finset.union_empty, Finset.union_empty]
      · simp [Except.map]

theorem parse_decomp (bl : List String) (text : String) (p : Patch) :
    Patch.parse p text bl = (Patch.parse ⟨∅, ∅⟩ text bl).map
      (fun q0 => ⟨p.added ∪ q0.added, p.removed ∪ q0.removed⟩) := by
  rw [Patch.parse, Patch.parse]
  generalize splitCommaSpace text.data = toks
  induction toks generalizing p with
  | nil => simp [Pure.pure, Except.pure, Except.map]
  | cons t rest ih =>
    rw [List.foldlM_cons, List.foldlM_cons]
    rw [parseTok_union bl p t]
    cases h0 : Patch.parseTok bl ⟨∅, ∅⟩ t with
    | error e => simp [Except.map, Bind.bind, Except.bind]
    | ok t0 =>
      simp only [Except.map, Bind.bind, Except.bind]
      rw [ih ⟨p.added ∪ t0.added, p.removed ∪ t0.removed⟩, ih t0]
      cases hrest : rest.foldlM (Patch.parseTok bl) ⟨∅, ∅⟩ with
      | error e => simp [Except.map]
      | ok r0 =>
        simp only [Except.map]
        refine congrArg Except.ok ?_
        simp [Finset.union_assoc]

/-- C10: when a patch file has two lines for the same package, reading
merges them by plain set union of the parsed tokens, with no
cancellation: parsing text into an existing patch yields exactly the
union of the existing sets with the sets parsed from scratch, and
reading the lines "pkg: +x" and "pkg: -x" yields a single entry with
added = {x} and removed = {x}. -/
theorem read_fd_union_merge :
    (∀ (bl : List String) (p : Patch) (text : String) (q : Patch),
      Patch.parse p text bl = .ok q →
      ∃ q0, Patch.parse ⟨∅, ∅⟩ text bl = .ok q0 ∧
        q.added = p.added ∪ q0.added ∧ q.removed = p.removed ∪ q0.removed) ∧
    PS.read_fd [] [] ["pkg: +x", "pkg: -x"] =
      .ok [("pkg", ⟨{"x"}, {"x"}⟩)] := by
  constructor
  · intro bl p text q h
    rw [parse_decomp bl text p] at h
    cases h0 : Patch.parse ⟨∅, ∅⟩ text bl with
    | error e => rw [h0] at h; simp [Except.map] at h
    | ok q0 =>
      rw [h0] at h
      simp only [Except.map] at h
      injection h with h2
      exact ⟨q0, rfl, by rw [← h2], by rw [← h2]⟩
  · decide

/-- Witness for C10: parsing "-x" into a patch that already adds "a"
unions the fresh parse onto the existing sets. -/
theorem read_fd_union_merge_witness :
    ∃ q0, Patch.parse ⟨∅, ∅⟩ "-x" [] = .ok q0 ∧
      ({"a"} : Finset String) = {"a"} ∪ q0.added ∧
      ({"x"} : Finset String) = ∅ ∪ q0.removed :=
  read_fd_union_merge.1 [] ⟨{"a"}, ∅⟩ "-x" ⟨{"a"}, {"x"}⟩ (by decide)

theorem patch_add_nonempty (p : Patch) (ia ir : Finset String)
    (h : p.empty = false) : (p.add ia ir).empty = false := by
  simp only [Patch.empty, Patch.add, decide_eq_false_iff_not, not_and] at h ⊢
  intro hadd hrem
  rw [Finset.union_eq_empty] at hrem
  obtain ⟨h1, h2⟩ := hrem
  subst h2
  rw [Finset.sdiff_empty, Finset.union_eq_empty] at hadd
  obtain ⟨h3, h4⟩ := hadd
  subst h4
  rw [Finset.sdiff_empty] at h1
  exact (h h3) h1

theorem union_nonempty_patch (p : Patch) (a b : Finset String)
    (h : p.empty = false) :
    (Patch.mk (p.added ∪ a) (p.removed ∪ b)).empty = false := by
  simp only [Patch.empty, decide_eq_false_iff_not, not_and] at h ⊢
  intro h1 h2
  rw [Finset.union_eq_empty] at h1 h2
  exact (h h1.1) h2.1

theorem simplified_nonempty (p : Patch) (tags : Finset String)
    (wl : Option (Finset String)) (q : Patch)
    (h : p.simplified tags wl = some q) : q.empty = false := by
  simp only [Patch.simplified] at h
  split_ifs at h with hc
  injection h with h2
  subst h2
  simp only [Patch.empty, decide_eq_false_iff_not]
  exact hc

theorem find_some_mem {ps : PS} {pkg : String} {c : Patch}
    (h : PS.find ps pkg = some c) : (pkg, c) ∈ ps := by
  induction ps with
  | nil => simp [PS.find] at h
  | cons hd rest ih =>
    obtain ⟨p, patch⟩ := hd
    rw [PS.find] at h
    split_ifs at h with hp
    · injection h with h2
      subst h2
      subst hp
      exact List.mem_cons_self _ _
    · exact List.mem_cons_of_mem _ (ih h)

theorem ps_add_noempty : ∀ (ps : PS) (pkg : String) (ia ir : Finset String),
    PS.NoEmpty ps → PS.NoEmpty (PS.add ps pkg ia ir) := by
  intro ps pkg ia ir
  induction ps with
  | nil =>
    intro _ e he
    rw [PS.add] at he
    split_ifs at he with hc
    · simp at he
    · rw [List.mem_singleton] at he
      subst he
      exact Bool.eq_false_iff.mpr hc
  | cons hd rest ih =>
    obtain ⟨p, patch⟩ := hd
    intro h e he
    rw [PS.add] at he
    split_ifs at he with hp
    · rcases List.mem_cons.mp he with h1 | h1
      · subst h1
        exact patch_add_nonempty patch ia ir (h (p, patch) (by simp))
      · exact h e (List.mem_cons_of_mem _ h1)
    · rcases List.mem_cons.mp he with h1 | h1
      · subst h1
        exact h (p, patch) (by simp)
      · exact ih (fun u hu => h u (List.mem_cons_of_mem _ hu)) e h1

theorem foldl_noempty {α : Type} (f : PS → α → PS)
    (hf : ∀ acc a, PS.NoEmpty acc → PS.NoEmpty (f acc a)) :
    ∀ (l : List α) (acc : PS), PS.NoEmpty acc → PS.NoEmpty (l.foldl f acc) := by
  intro l
  induction l with
  | nil => intro acc h; exact h
  | cons a rest ih =>
    intro acc h
    rw [List.foldl_cons]
    exact ih (f acc a) (hf acc a h)

theorem replace_noempty : ∀ (ps : PS) (pkg : String) (q : Patch),
    PS.NoEmpty ps → q.empty = false → PS.NoEmpty (PS.replace ps pkg q) := by
  intro ps pkg q
  induction ps with
  | nil => intro _ _ e he; simp [PS.replace] at he
  | cons hd rest ih =>
    obtain ⟨p, patch⟩ := hd
    intro h hq e he
    rw [PS.replace] at he
    split_ifs at he with hp
    · rcases List.mem_cons.mp he with h1 | h1
      · subst h1; exact hq
      · exact h e (List.mem_cons_of_mem _ h1)
    · rcases List.mem_cons.mp he with h1 | h1
      · subst h1; exact h (p, patch) (by simp)
      · exact ih (fun u hu => h u (List.mem_cons_of_mem _ hu)) hq e h1

theorem readLine_noempty {bl : List String} {ps : PS} {line : String} {ps2 : PS}
    (h : PS.NoEmpty ps) (he : PS.readLine bl ps line = .ok ps2) :
    PS.NoEmpty ps2 := by
  simp only [PS.readLine] at he
  by_cases hblank : pyStrip line = ""
  · rw [if_pos hblank] at he
    injection he with h2
    subst h2
    exact h
  · rw [if_neg hblank] at he
    cases hsp : splitColonSpace (pyStrip line).data with
    | none =>
      rw [hsp] at he
      dsimp only at he
      by_cases hleg : legacyLine (pyStrip line) = true
      · rw [if_pos hleg] at he
        injection he with h2
        subst h2
        exact h
      · rw [if_neg hleg] at he
        exact absurd he (by simp)
    | some pr =>
      obtain ⟨pkg, tags⟩ := pr
      rw [hsp] at he
      dsimp only at he
      cases hfind : PS.find ps (String.mk pkg) with
      | some cur =>
        rw [hfind] at he
        dsimp only at he
        cases hp : Patch.parse cur (String.mk tags) bl with
        | error e2 => rw [hp] at he; exact absurd he (by simp)
        | ok q =>
          rw [hp] at he
          dsimp only at he
          injection he with h2
          subst h2
          have hcur : cur.empty = false := h (String.mk pkg, cur) (find_some_mem hfind)
          have hdec := parse_decomp bl (String.mk tags) cur
          rw [hp] at hdec
          cases h0 : Patch.parse ⟨∅, ∅⟩ (String.mk tags) bl with
          | error e2 => rw [h0] at hdec; simp [Except.map] at hdec
          | ok q0 =>
            rw [h0] at hdec
            simp only [Except.map] at hdec
            injection hdec with h3
            have hqne : q.empty = false := by
              rw [h3]
              exact union_nonempty_patch cur q0.added q0.removed hcur
            exact replace_noempty ps (String.mk pkg) q h hqne
      | none =>
        rw [hfind] at he
        dsimp only at he
        cases hp : Patch.parse ⟨∅, ∅⟩ (String.mk tags) bl with
        | error e2 => rw [hp] at he; exact absurd he (by simp)
        | ok q =>
          rw [hp] at he
          dsimp only at he
          injection he with h2
          subst h2
          by_cases hq : q.empty = true
          · rw [if_pos hq]; exact h
          · rw [if_neg hq]
            intro e he2
            rcases List.mem_append.mp he2 with h1 | h1
            · exact h e h1
            · rw [List.mem_singleton] at h1
              subst h1
              exact Bool.eq_false_iff.mpr hq

theorem read_fd_noempty : ∀ (lines bl : List String) (ps ps2 : PS),
    PS.NoEmpty ps → PS.read_fd bl ps lines = .ok ps2 → PS.NoEmpty ps2 := by
  intro lines
  induction lines with
  | nil =>
    intro bl ps ps2 h he
    rw [PS.read_fd] at he
    injection he with h2
    subst h2
    exact h
  | cons line rest ih =>
    intro bl ps ps2 h he
    rw [PS.read_fd] at he
    cases hl : PS.readLine bl ps line with
    | error e => rw [hl] at he; exact absurd he (by simp)
    | ok ps1 =>
      rw [hl] at he
      exact ih bl ps1 ps2 (readLine_noempty h hl) he

/-- C6: no PatchSet operation stores an empty Patch — `PatchSet.add` and
`add_patchset` preserve the no-empty-patch invariant, `simplified` and
`diff` produce patchsets satisfying it unconditionally, and `read_fd`
preserves it whenever reading succeeds. -/
theorem patchset_no_empty_patches :
    ∀ (bl : List String) (ps other : PS) (pkg : String) (ia ir : Finset String)
      (d : TagDatabase) (wl : Option (Finset String)) (lines : List String)
      (ps2 : PS),
    (PS.NoEmpty ps → PS.NoEmpty (PS.add ps pkg ia ir)) ∧
    (PS.NoEmpty ps → PS.NoEmpty (PS.add_patchset ps other)) ∧
    PS.NoEmpty (PS.simplified ps d wl) ∧
    PS.NoEmpty (PS.diff ps other) ∧
    (PS.NoEmpty ps → PS.read_fd bl ps lines = .ok ps2 → PS.NoEmpty ps2) := by
  intro bl ps other pkg ia ir d wl lines ps2
  have h0 : PS.NoEmpty ([] : PS) := fun e he => absurd he (List.not_mem_nil e)
  refine ⟨ps_add_noempty ps pkg ia ir, ?_, ?_, ?_, read_fd_noempty lines bl ps ps2⟩
  · intro h
    exact foldl_noempty _ (fun acc a ha => ps_add_noempty acc a.1 _ _ ha) other ps h
  · intro e he
    rw [PS.simplified] at he
    rcases List.mem_filterMap.mp he with ⟨a, _, hfa⟩
    split_ifs at hfa
    rcases Option.map_eq_some'.mp hfa with ⟨q, hq, hge⟩
    rw [← hge]
    exact simplified_nonempty a.2 _ wl q hq
  · simp only [PS.diff]
    refine foldl_noempty _ ?_ other _ (foldl_noempty _ ?_ ps [] h0)
    · intro acc a ha
      dsimp only
      cases PS.find ps a.1
      · exact ps_add_noempty acc a.1 _ _ ha
      · exact ha
    · intro acc a ha
      dsimp only
      cases PS.find other a.1
      · exact ps_add_noempty acc a.1 _ _ ha
      · exact ps_add_noempty acc a.1 _ _ ha

/-- Witness for C6: adding a non-empty patch to the empty patchset. -/
theorem patchset_no_empty_patches_witness :
    PS.NoEmpty (PS.add [] "pkg" {"x"} ∅) :=
  (patchset_no_empty_patches [] [] [] "pkg" {"x"} ∅
    ⟨∅, fun _ => ∅, fun _ => ∅⟩ none [] []).1
    (fun e he => absurd he (List.not_mem_nil e))

/-- C8 counterexample: the line "pkg: , +x" does contain the ": "
separator — so under the claim, reading it must not raise — yet
`read_fd` fails on it, and with an index error that does not carry the
line text: the patch body splits into an empty comma-separated token. -/
theorem read_fd_error_counterexample :
    PS.read_fd [] [] ["pkg: , +x"] = .error .indexError ∧
    (splitColonSpace (pyStrip "pkg: , +x").data).isSome = true := by decide

/-- C8 amended: blank lines are skipped; a non-blank line without the
": " separator matching the legacy regex is skipped; any other line
without the separator raises a fatal error carrying the stripped line
text; and the only further failure is the index error raised when the
patch body of a separated line contains an empty comma-separated
token — every error is of one of those two shapes. -/
theorem read_fd_error_amended :
    ∀ (bl : List String) (ps : PS) (line : String),
    (pyStrip line = "" → PS.readLine bl ps line = .ok ps) ∧
    (splitColonSpace (pyStrip line).data = none →
      legacyLine (pyStrip line) = true → PS.readLine bl ps line = .ok ps) ∧
    (pyStrip line ≠ "" → splitColonSpace (pyStrip line).data = none →
      legacyLine (pyStrip line) = false →
      PS.readLine bl ps line = .error (.cannotParse (pyStrip line))) ∧
    (∀ e, PS.readLine bl ps line = .error e →
      (e = .cannotParse (pyStrip line) ∧
        splitColonSpace (pyStrip line).data = none ∧
        legacyLine (pyStrip line) = false) ∨
      e = .indexError) := by
  intro bl ps line
  refine ⟨?_, ?_, ?_, ?_⟩
  · intro hblank
    simp only [PS.readLine]
    rw [if_pos hblank]
  · intro hsp hleg
    have hne : pyStrip line ≠ "" := by
      intro hq
      rw [hq] at hleg
      exact absurd hleg (by decide)
    simp only [PS.readLine]
    rw [if_neg hne, hsp]
    dsimp only
    rw [if_pos hleg]
  · intro hne hsp hleg
    simp only [PS.readLine]
    rw [if_neg hne, hsp]
    dsimp only
    rw [if_neg (by simp [hleg])]
  · intro e he
    simp only [PS.readLine] at he
    by_cases hblank : pyStrip line = ""
    · rw [if_pos hblank] at he
      exact absurd he (by simp)
    · rw [if_neg hblank] at he
      cases hsp : splitColonSpace (pyStrip line).data with
      | none =>
        rw [hsp] at he
        dsimp only at he
        by_cases hleg : legacyLine (pyStrip line) = true
        · rw [if_pos hleg] at he
          exact absurd he (by simp)
        · rw [if_neg hleg] at he
          injection he with h2
          exact Or.inl ⟨h2.symm, rfl, Bool.eq_false_iff.mpr hleg⟩
      | some pr =>
        obtain ⟨pkg, tags⟩ := pr
        rw [hsp] at he
        dsimp only at he
        cases hfind : PS.find ps (String.mk pkg) with
        | some cur =>
          rw [hfind] at he
          dsimp only at he
          cases hp : Patch.parse cur (String.mk tags) bl with
          | error e2 =>
            rw [hp] at he
            dsimp only at he
            injection he with h2
            refine Or.inr ?_
            rw [← h2]
            exact parse_error_eq hp
          | ok q =>
            rw [hp] at he
            dsimp only at he
            exact absurd he (by simp)
        | none =>
          rw [hfind] at he
          dsimp only at he
          cases hp : Patch.parse ⟨∅, ∅⟩ (String.mk tags) bl with
          | error e2 =>
            rw [hp] at he
            dsimp only at he
            injection he with h2
            refine Or.inr ?_
            rw [← h2]
            exact parse_error_eq hp
          | ok q =>
            rw [hp] at he
            dsimp only at he
            exact absurd he (by simp)

/-- Witness for C8: a separator-less, non-legacy line raises the fatal
error carrying the stripped line text. -/
theorem read_fd_error_witness :
    PS.readLine [] [] "bad line" = .error (.cannotParse "bad line") :=
  (read_fd_error_amended [] [] "bad line").2.2.1 (by decide) (by decide) (by decide)
end Debtags
